import Mathlib

/-!
# Verification of the multiaddr pattern matcher

A shallow embedding of the pattern algebra of `patterns.go` from
`go-multiaddr-fmt`: the `Base`/`And`/`Or` combinators, the
`partialMatch` prefix-consumption algorithm, the `Matches` full-match
entry points, and the `String` rendering, together with theorems about
their behaviour.

Modelling decisions, each tied to a line of the source:

* A protocol segment is reduced to its integer code (`Protocol`);
  matching reads only `pcs[i].Code`.
* A pattern is the closed sum of the three shapes the exported
  constructors `Base`, `And` (Op = and) and `Or` (Op = or) can build.
  The `default: panic` branches of `pattern.partialMatch` and
  `pattern.String` are unreachable for such patterns and so have no
  counterpart here.
* `pattern.partialMatch` is translated clause for clause: the `or` loop
  (`orLoop`), the `and` length pre-check followed by the `and` loop
  (`andLoop`).  A Go failure returns `(false, nil)`; `nil` is the empty
  list.
* `Matches` dispatches on the dynamic shape exactly as Go interface
  dispatch does: a bare `Base` runs `Base.Matches`, a composite runs
  `pattern.Matches`.  `Base.Matches` evaluates `pcs[0].Code` *before*
  the `len(pcs) == 1` conjunct, so on an empty sequence it panics with
  an index-out-of-range; the panic is modelled as `none`, every normal
  boolean result as `some b`.
* `Base.String` looks the code up in the external protocol registry
  (`ma.ProtocolWithCode(code).Name`); the registry is an explicit
  function argument `reg`.
-/

namespace mafmt

/-- One protocol segment of an address sequence.  The Go `ma.Protocol`
also carries a name, size and codec, but matching reads only `Code`. -/
structure Protocol where
  code : Int
deriving DecidableEq, Repr

/-- The closed pattern algebra: `base c` is the atom `Base(c)`,
`and args` the struct `pattern{Op: and, Args: args}` built by `And`,
`or args` the struct `pattern{Op: or, Args: args}` built by `Or`. -/
inductive Pattern where
  | base (code : Int) : Pattern
  | and (args : List Pattern) : Pattern
  | or (args : List Pattern) : Pattern

/-- The exported constructor `And(ps ...Pattern)`. -/
def And (ps : List Pattern) : Pattern := Pattern.and ps

/-- The exported constructor `Or(ps ...Pattern)`. -/
def Or (ps : List Pattern) : Pattern := Pattern.or ps

/-- The exported atom constructor (the Go type `Base int`). -/
def Base (c : Int) : Pattern := Pattern.base c

mutual

/-- `partialMatch` of the `Pattern` interface.  For `Base` it is
`Base.partialMatch`: empty input fails, otherwise compare the head
code and on success return the tail.  For a composite it is
`pattern.partialMatch`: the `or` loop, or the `and` length pre-check
followed by the `and` loop.  Go's `(false, nil)` is `(false, [])`. -/
def partialMatch : Pattern → List Protocol → Bool × List Protocol
  | Pattern.base c, pcs =>
    match pcs with
    | [] => (false, [])
    | p0 :: rest => if p0.code == c then (true, rest) else (false, [])
  | Pattern.or args, pcs => orLoop args pcs
  | Pattern.and args, pcs =>
    if pcs.length < args.length then (false, [])
    else andLoop args pcs

/-- The `case or` loop of `pattern.partialMatch`: try each argument in
order on the whole input and return the first success. -/
def orLoop : List Pattern → List Protocol → Bool × List Protocol
  | [], _ => (false, [])
  | a :: rest, pcs =>
    match partialMatch a pcs with
    | (true, rem) => (true, rem)
    | (false, _) => orLoop rest pcs

/-- The `case and` loop of `pattern.partialMatch`: run each argument on
the remainder left by the previous one, failing as soon as one fails. -/
def andLoop : List Pattern → List Protocol → Bool × List Protocol
  | [], pcs => (true, pcs)
  | a :: rest, pcs =>
    match partialMatch a pcs with
    | (true, rem) => andLoop rest rem
    | (false, _) => (false, [])

end

/-- The full-match entry point, with Go interface dispatch made
explicit.  A bare atom runs `Base.Matches`, whose Go body
`pcs[0].Code == int(p) && len(pcs) == 1` indexes the sequence before
checking its length: on an empty sequence it panics (modelled `none`).
A composite runs `pattern.Matches`: `partialMatch` plus the
empty-remainder check, always returning a boolean. -/
def Matches : Pattern → List Protocol → Option Bool
  | Pattern.base c, pcs =>
    match pcs with
    | [] => none
    | p0 :: _ => some (p0.code == c && pcs.length == 1)
  | Pattern.and args, pcs =>
    let r := partialMatch (Pattern.and args) pcs
    some (r.1 && r.2.length == 0)
  | Pattern.or args, pcs =>
    let r := partialMatch (Pattern.or args) pcs
    some (r.1 && r.2.length == 0)

mutual

/-- The `String` rendering of a pattern.  `Base.String` is the
registry lookup `reg`; `pattern.String` collects the arguments'
renderings and joins them with `/` (and) or `|` inside braces (or). -/
def Pattern.render (reg : Int → String) : Pattern → String
  | Pattern.base c => reg c
  | Pattern.and args => String.intercalate "/" (Pattern.renderList reg args)
  | Pattern.or args =>
    "\x7b" ++ String.intercalate "|" (Pattern.renderList reg args) ++ "\x7d"

/-- The `for _, a := range ptrn.Args` loop of `pattern.String`,
collecting each argument's rendering in order. -/
def Pattern.renderList (reg : Int → String) : List Pattern → List String
  | [] => []
  | p :: ps => Pattern.render reg p :: Pattern.renderList reg ps

end

/-! ## Helper lemmas shared by the claim theorems -/

/-- A pattern full-matches (without panicking) exactly when its partial
match succeeds with an empty remainder.  For a bare atom the panicking
empty-input case is on neither side of the equivalence. -/
theorem matches_some_true_iff (p : Pattern) (pcs : List Protocol) :
    Matches p pcs = some true ↔ partialMatch p pcs = (true, []) := by
  cases p with
  | base c =>
    cases pcs with
    | nil => simp [Matches, partialMatch]
    | cons p0 rest =>
      by_cases h : p0.code = c
      · simp [Matches, partialMatch, h, List.length_eq_zero]
      · simp [Matches, partialMatch, h]
  | and args =>
    rcases hr : partialMatch (Pattern.and args) pcs with ⟨ok, rem⟩
    cases ok <;> cases rem <;> simp [Matches, hr]
  | or args =>
    rcases hr : partialMatch (Pattern.or args) pcs with ⟨ok, rem⟩
    cases ok <;> cases rem <;> simp [Matches, hr]

/-- The `or` loop succeeds with remainder `rem` exactly when some
argument's partial match returns `(true, rem)` and every argument
listed before it fails its partial match. -/
theorem orLoop_first_success (args : List Pattern) (pcs rem : List Protocol) :
    orLoop args pcs = (true, rem) ↔
      ∃ l1 a l2, args = l1 ++ a :: l2 ∧ partialMatch a pcs = (true, rem) ∧
        ∀ b ∈ l1, (partialMatch b pcs).1 = false := by
  induction args with
  | nil =>
    simp only [orLoop]
    constructor
    · intro h
      exact absurd h (by simp)
    · rintro ⟨l1, a, l2, heq, -, -⟩
      exact absurd heq.symm (by simp)
  | cons a rest ih =>
    rcases hp : partialMatch a pcs with ⟨ok, r⟩
    cases ok
    · rw [show orLoop (a :: rest) pcs = orLoop rest pcs by rw [orLoop, hp], ih]
      constructor
      · rintro ⟨l1, a1, l2, heq, ha1, hfail⟩
        refine ⟨a :: l1, a1, l2, by rw [heq, List.cons_append], ha1, ?_⟩
        intro b hb
        rcases List.mem_cons.mp hb with h | h
        · rw [h, hp]
        · exact hfail b h
      · rintro ⟨l1, a1, l2, heq, ha1, hfail⟩
        cases l1 with
        | nil =>
          simp only [List.nil_append, List.cons.injEq] at heq
          rw [← heq.1, hp] at ha1
          exact absurd ha1 (by simp)
        | cons b l1t =>
          simp only [List.cons_append, List.cons.injEq] at heq
          exact ⟨l1t, a1, l2, heq.2, ha1,
            fun x hx => hfail x (List.mem_cons_of_mem b hx)⟩
    · rw [show orLoop (a :: rest) pcs = (true, r) by rw [orLoop, hp]]
      constructor
      · intro h
        rw [Prod.mk.injEq] at h
        refine ⟨[], a, rest, rfl, ?_, by simp⟩
        rw [hp, h.2]
      · rintro ⟨l1, a1, l2, heq, ha1, hfail⟩
        cases l1 with
        | nil =>
          simp only [List.nil_append, List.cons.injEq] at heq
          rw [← heq.1, hp] at ha1
          rw [Prod.mk.injEq] at ha1 ⊢
          exact ⟨rfl, ha1.2⟩
        | cons b l1t =>
          simp only [List.cons_append, List.cons.injEq] at heq
          have := hfail b (List.mem_cons_self b l1t)
          rw [← heq.1, hp] at this
          exact absurd this (by simp)

/-- If every argument's partial match fails, the `or` loop fails. -/
theorem orLoop_all_fail (args : List Pattern) (pcs : List Protocol)
    (h : ∀ a ∈ args, (partialMatch a pcs).1 = false) :
    orLoop args pcs = (false, []) := by
  induction args with
  | nil => rfl
  | cons a rest ih =>
    rcases hp : partialMatch a pcs with ⟨ok, r⟩
    have ha := h a (List.mem_cons_self a rest)
    rw [hp] at ha
    have hok : ok = false := ha
    subst hok
    rw [orLoop, hp]
    exact ih fun b hb => h b (List.mem_cons_of_mem a hb)

/-- The ordered left-to-right consumption described by the spec for
Sequence (AND): run the children in listed order, feed each the
remainder returned by the previous one, fail as soon as one fails, and
on success return the remainder left after the last child.  Stated
from the spec's words, to be compared with `andLoop` from the source. -/
def seqConsume : List Pattern → List Protocol → Option (List Protocol)
  | [], pcs => some pcs
  | p :: ps, pcs =>
    match partialMatch p pcs with
    | (true, rem) => seqConsume ps rem
    | (false, _) => none

/-- The source's `and` loop computes exactly the spec's ordered
consumption. -/
theorem andLoop_eq_seqConsume (args : List Pattern) (pcs : List Protocol) :
    andLoop args pcs = match seqConsume args pcs with
      | some rem => (true, rem)
      | none => (false, []) := by
  induction args generalizing pcs with
  | nil => rfl
  | cons a rest ih =>
    rcases hp : partialMatch a pcs with ⟨ok, r⟩
    cases ok
    · simp only [andLoop, seqConsume, hp]
    · simp only [andLoop, seqConsume, hp]
      exact ih r

mutual

/-- The remainder returned by `partialMatch` is a suffix of the input. -/
theorem partialMatch_suffix (p : Pattern) (pcs : List Protocol) :
    (partialMatch p pcs).2.IsSuffix pcs := by
  cases p with
  | base c =>
    cases pcs with
    | nil => exact List.nil_suffix
    | cons p0 rest =>
      by_cases h : p0.code = c
      · simp only [partialMatch, h]
        simp only [beq_self_eq_true, if_true]
        exact List.suffix_cons p0 rest
      · have hb : (p0.code == c) = false := by simp [h]
        simp only [partialMatch, hb, Bool.false_eq_true, if_false]
        exact List.nil_suffix
  | or args =>
    exact orLoop_suffix args pcs
  | and args =>
    by_cases h : pcs.length < args.length
    · simp only [partialMatch, if_pos h]
      exact List.nil_suffix
    · simp only [partialMatch, if_neg h]
      exact andLoop_suffix args pcs

/-- The remainder returned by the `or` loop is a suffix of the input. -/
theorem orLoop_suffix (args : List Pattern) (pcs : List Protocol) :
    (orLoop args pcs).2.IsSuffix pcs := by
  cases args with
  | nil => exact List.nil_suffix
  | cons a rest =>
    rcases hp : partialMatch a pcs with ⟨ok, r⟩
    cases ok
    · simp only [orLoop, hp]
      exact orLoop_suffix rest pcs
    · simp only [orLoop, hp]
      have h1 := partialMatch_suffix a pcs
      rw [hp] at h1
      exact h1

/-- The remainder returned by the `and` loop is a suffix of the input. -/
theorem andLoop_suffix (args : List Pattern) (pcs : List Protocol) :
    (andLoop args pcs).2.IsSuffix pcs := by
  cases args with
  | nil => exact List.suffix_rfl
  | cons a rest =>
    rcases hp : partialMatch a pcs with ⟨ok, r⟩
    cases ok
    · simp only [andLoop, hp]
      exact List.nil_suffix
    · simp only [andLoop, hp]
      have h1 := partialMatch_suffix a pcs
      rw [hp] at h1
      exact (andLoop_suffix rest r).trans h1

end

/-- Collecting the renderings of a list of patterns is mapping the
rendering over the list. -/
theorem renderList_eq_map (reg : Int → String) (args : List Pattern) :
    Pattern.renderList reg args = args.map (Pattern.render reg) := by
  induction args with
  | nil => rfl
  | cons p ps ih => simp [Pattern.renderList, ih]

/-! ## Claim theorems -/

/-- C1, counterexample.  The claim "Alternative full-matches `s` iff at
least one child full-matches `s`" is false as stated: with
`P1 = Base 1`, `P2 = And [Base 1, Base 2]` and `s = [1, 2]`, `P1`
partially matches the proper prefix `[1]` of `s` (so `P1` fails the
full match), `P2` full-matches `s`, yet the alternative `Or [P1, P2]`
returns false — the `or` loop commits to `P1`'s partial success and
never consults `P2`. -/
theorem or_abandons_on_partial_success :
    Matches (Or [Base 1, And [Base 1, Base 2]])
        [⟨1⟩, ⟨2⟩] = some false ∧
    Matches (And [Base 1, Base 2]) [⟨1⟩, ⟨2⟩] = some true ∧
    partialMatch (Base 1) [⟨1⟩, ⟨2⟩] = (true, [⟨2⟩]) ∧
    Matches (Base 1) [⟨1⟩, ⟨2⟩] = some false :=
  ⟨rfl, rfl, rfl, rfl⟩

/-- C1, amended.  An Alternative full-matches `s` iff some child `Pi`
full-matches `s` and every child listed before `Pi` fails its partial
match on `s` outright; a child whose partial match succeeds on a
proper prefix of `s` commits the Alternative and blocks later
children. -/
theorem or_fullmatch_iff_first_full (args : List Pattern) (pcs : List Protocol) :
    Matches (Pattern.or args) pcs = some true ↔
      ∃ l1 a l2, args = l1 ++ a :: l2 ∧ Matches a pcs = some true ∧
        ∀ b ∈ l1, (partialMatch b pcs).1 = false := by
  rw [matches_some_true_iff]
  rw [show partialMatch (Pattern.or args) pcs = orLoop args pcs from rfl]
  rw [orLoop_first_success]
  refine exists_congr fun l1 => exists_congr fun a => exists_congr fun l2 => ?_
  exact and_congr Iff.rfl (and_congr (matches_some_true_iff a pcs).symm Iff.rfl)

/-- C2.  The claim says `Matches` never panics, but `Base.Matches`
evaluates `pcs[0].Code` before checking `len(pcs) == 1`, so a bare atom
matched against the empty address sequence panics with an
index-out-of-range (modelled as `none`); here with the ip4 code 4. -/
theorem base_matches_empty_panics :
    Matches (Base 4) [] = none :=
  rfl

/-- C3.  Atom full-match: against a one-segment sequence it returns
whether the segment's code equals the atom's code, and against two or
more segments it returns false regardless of codes — but against the
empty sequence it does not return false as claimed: it panics
(modelled as `none`), because `pcs[0]` is evaluated before the length
check. -/
theorem base_fullmatch_cases (c : Int) (s1 s2 : Protocol) (rest : List Protocol) :
    Matches (Base c) [s1] = some (s1.code == c) ∧
    Matches (Base c) (s1 :: s2 :: rest) = some false ∧
    Matches (Base c) [] = none := by
  refine ⟨?_, ?_, rfl⟩
  · simp [Matches, Base]
  · simp [Matches, Base]

/-- C4.  Sequence partial match: it fails outright when the input has
fewer segments than the Sequence has children, and otherwise equals
the ordered left-to-right consumption `seqConsume` — children run in
listed order, each fed the previous child's remainder, failing as soon
as one child fails, and on success returning the last remainder. -/
theorem and_partialMatch_spec (args : List Pattern) (pcs : List Protocol) :
    partialMatch (Pattern.and args) pcs =
      if pcs.length < args.length then (false, [])
      else match seqConsume args pcs with
        | some rem => (true, rem)
        | none => (false, []) := by
  by_cases h : pcs.length < args.length
  · simp only [partialMatch, if_pos h]
  · simp only [partialMatch, if_neg h]
    exact andLoop_eq_seqConsume args pcs

/-- C5.  Alternative partial match: it returns `(true, rem)` exactly
when some child's partial match returns `(true, rem)` and every child
listed before it fails its partial match (so later children are never
consulted after a success), and it fails when every child fails. -/
theorem or_partialMatch_first_success (args : List Pattern) (pcs rem : List Protocol) :
    (partialMatch (Pattern.or args) pcs = (true, rem) ↔
      ∃ l1 a l2, args = l1 ++ a :: l2 ∧ partialMatch a pcs = (true, rem) ∧
        ∀ b ∈ l1, (partialMatch b pcs).1 = false) ∧
    ((∀ a ∈ args, (partialMatch a pcs).1 = false) →
      partialMatch (Pattern.or args) pcs = (false, [])) :=
  ⟨orLoop_first_success args pcs rem, orLoop_all_fail args pcs⟩

/-- C6.  The empty Sequence full-matches exactly the empty input
sequence, and the empty Alternative full-matches no input at all. -/
theorem empty_and_or_fullmatch (pcs : List Protocol) :
    (Matches (And []) pcs = some true ↔ pcs = []) ∧
    Matches (Or []) pcs = some false := by
  constructor
  · rw [And, matches_some_true_iff]
    cases pcs <;> simp [partialMatch, andLoop]
  · cases pcs <;> simp [Matches, Or, partialMatch, orLoop]

/-- C7.  Committed choice: with `A = Base 1`, `B = And [Base 1, Base 2]`,
`C = Base 3` and `s = [1, 2, 3]`, the pattern
`Sequence(Alternative(A, B), C)` fails to full-match `s` — `A`
partially matches the prefix `[1]`, the Alternative commits to `A`'s
remainder `[2, 3]`, and `C` fails on it with no backtracking — while
`Sequence(B, C)` full-matches the same `s`. -/
theorem committed_alternative_blocks_sequence :
    Matches (And [Or [Base 1, And [Base 1, Base 2]], Base 3])
        [⟨1⟩, ⟨2⟩, ⟨3⟩] = some false ∧
    Matches (And [And [Base 1, Base 2], Base 3])
        [⟨1⟩, ⟨2⟩, ⟨3⟩] = some true ∧
    partialMatch (Base 1) [⟨1⟩, ⟨2⟩, ⟨3⟩] = (true, [⟨2⟩, ⟨3⟩]) ∧
    (partialMatch (Base 3) [⟨2⟩, ⟨3⟩]).1 = false :=
  ⟨rfl, rfl, rfl, rfl⟩

/-- C8.  Rendering: an Atom renders as the registry display name of
its code, a Sequence as its children's renderings joined with `/` and
no wrapping brackets, and an Alternative as its children's renderings
joined with `|` and wrapped in braces. -/
theorem render_spec (reg : Int → String) (c : Int) (args : List Pattern) :
    Pattern.render reg (Base c) = reg c ∧
    Pattern.render reg (And args) =
      String.intercalate "/" (args.map (Pattern.render reg)) ∧
    Pattern.render reg (Or args) =
      "\x7b" ++ String.intercalate "|" (args.map (Pattern.render reg)) ++ "\x7d" :=
  ⟨rfl,
   by rw [And, Pattern.render, renderList_eq_map],
   by rw [Or, Pattern.render, renderList_eq_map]⟩

/-- C9.  Input consumption is monotone: the remainder returned by any
partial match is a suffix of the input, hence never longer than it.
(Termination itself is witnessed by `partialMatch`, `orLoop` and
`andLoop` being accepted as total functions by recursion on the
pattern tree.) -/
theorem partialMatch_consumption_monotone (p : Pattern) (pcs : List Protocol) :
    (partialMatch p pcs).2.IsSuffix pcs ∧
    (partialMatch p pcs).2.length ≤ pcs.length :=
  ⟨partialMatch_suffix p pcs, (partialMatch_suffix p pcs).length_le⟩

/-- C10.  The Sequence length pre-check is authoritative: whenever the
input has fewer segments than the Sequence has children, the full
match fails, even when the children could succeed consuming nothing. -/
theorem and_length_precheck_authoritative (args : List Pattern) (pcs : List Protocol)
    (h : pcs.length < args.length) :
    Matches (And args) pcs = some false := by
  rw [And]
  rw [show Matches (Pattern.and args) pcs
      = some ((partialMatch (Pattern.and args) pcs).1 &&
          (partialMatch (Pattern.and args) pcs).2.length == 0) from rfl]
  rw [show partialMatch (Pattern.and args) pcs = (false, []) by
    rw [partialMatch, if_pos h]]
  rfl

/-- C10, witness.  `Sequence(EmptySequence)` does not full-match the
empty address sequence, although its sole child's partial match
succeeds on it consuming nothing. -/
theorem and_length_precheck_authoritative_witness :
    List.length ([] : List Protocol) < List.length [And []] ∧
    Matches (And [And []]) [] = some false ∧
    partialMatch (And []) [] = (true, []) :=
  ⟨by decide, and_length_precheck_authoritative [And []] [] (by decide), rfl⟩

end mafmt
